import Mathlib

/-!
Verification of the Cost Analysis Orchestration Engine
(`src/backend/src/agentic_ai/llm_engine.py`, `cache_manager.py`,
`enhanced_analysis.py`) against its natural-language specification.

Modelling conventions:
* Python dict-shaped usage records become the `Record` structure; a missing
  key is `none`, the Python falsy handling of `x or y` on strings is the
  `orFal` / `orStr` helpers.
* Python floats are modelled as exact rationals `ℚ`; `round(x, 2)` is
  `round2` (round half to even, as Python rounds).
* The insertion-ordered Python dict used for per-service / per-date
  accumulation is an association list built by `addTo` / `groupInto`.
* The external Prophet library and the Gemini provider are oracles passed
  in as function parameters; `none` covers unavailability, a thrown
  exception and a null/empty response alike, matching the engine which
  treats all three the same way.
-/

namespace CostGuardian

/-- One billed usage line item (the dict consumed by `LLMEngine`).
Fields the engine reads; a missing dict key is `none`.  `anomaly_flag`
is the Python truthiness of `r.get("anomaly_flag")`. -/
structure Record where
  service_name : Option String := none
  service : Option String := none
  region : Option String := none
  usage_date : Option String := none
  date : Option String := none
  resource_id : Option String := none
  account_id : Option String := none
  cost : Option ℚ := none
  anomaly_flag : Bool := false
  anomaly_score : Option ℚ := none
deriving DecidableEq, Repr

/-- Python `a or b` on an optional string: `None` and `""` are falsy. -/
def orFal (a b : Option String) : Option String :=
  match a with
  | some s => if s = "" then b else some s
  | none => b

/-- Python `a or b` where `b` is a plain (string) default. -/
def orStr (a : Option String) (b : String) : String :=
  match a with
  | some s => if s = "" then b else s
  | none => b

/-- `float(r.get("cost", 0.0) or 0.0)`. -/
def costOf (r : Record) : ℚ := r.cost.getD 0

/-- `r.get("anomaly_score", 0)` (with the `or 0` used downstream). -/
def scoreOf (r : Record) : ℚ := r.anomaly_score.getD 0

/-- `r.get("service_name") or "unknown"` (anomaly detector). -/
def svcOfD (r : Record) : String := orStr r.service_name "unknown"

/-- `r.get("service_name") or r.get("service") or "unknown"` (summary). -/
def svcOfS (r : Record) : String := orStr r.service_name (orStr r.service "unknown")

/-- `r.get("region") or "unknown"`. -/
def regOf (r : Record) : String := orStr r.region "unknown"

/-- `by_service[k] = by_service.get(k, 0.0) + v` on an insertion-ordered
dict: update the existing entry in place, else append at the end. -/
def addTo : List (String × ℚ) → String → ℚ → List (String × ℚ)
  | [], k, v => [(k, v)]
  | (k', v') :: rest, k, v =>
    if k' = k then (k', v' + v) :: rest else (k', v') :: addTo rest k v

/-- The accumulation loop `for r in dataset: acc[k] += v`. -/
def groupInto (acc : List (String × ℚ)) : List (String × ℚ) → List (String × ℚ)
  | [] => acc
  | p :: ps => groupInto (addTo acc p.1 p.2) ps

/-- Accumulate key/value pairs into an insertion-ordered totals dict. -/
def groupSum (ps : List (String × ℚ)) : List (String × ℚ) := groupInto [] ps

/-- `statistics.mean`. -/
def listMean (vs : List ℚ) : ℚ := vs.sum / vs.length

/-- `statistics.pstdev` squared: the population variance. -/
def listPVar (vs : List ℚ) : ℚ :=
  ((vs.map fun v => (v - listMean vs) ^ 2).sum) / vs.length

/-- The statistical exceedance test of `_detect_anomalies`:
`tot > mean_ + 3 * std_ if std_ else tot > mean_ * 2`, where
`std_ = pstdev if len(by_service) > 1 else 0`.  `pstdev > 0` is exactly
`var > 0` (a single service has population variance 0), and for
`var > 0` the irrational comparison `tot > mean + 3 * sqrt var` is
encoded in exact rational arithmetic as
`tot > mean ∧ (tot - mean) ^ 2 > 9 * var`; the equivalence with the
square-root form is proved in `exceedsThreshold_iff_spec` below. -/
def exceedsThreshold (mean var tot : ℚ) : Bool :=
  if 0 < var then decide (mean < tot) && decide (9 * var < (tot - mean) ^ 2)
  else decide (2 * mean < tot)

/-- An entry of the anomaly list: either a verbatim flagged record
(pass 1) or the synthesized service-level dict
`{service_name, cost, reason: "service_total_exceeds_threshold"}`
(pass 2; the `reason` field is that constant string). -/
inductive Anom where
  | record (r : Record)
  | svc (service_name : String) (cost : ℚ)
deriving DecidableEq, Repr

/-- `r.get("anomaly_flag") or r.get("anomaly_score", 0) > 0.8`. -/
def isExplicitAnom (r : Record) : Bool :=
  r.anomaly_flag || decide ((0.8 : ℚ) < scoreOf r)

/-- The per-service totals dict of `_detect_anomalies`. -/
def byServiceD (ds : List Record) : List (String × ℚ) :=
  groupSum (ds.map fun r => (svcOfD r, costOf r))

/-- Pass 2 of `_detect_anomalies`: synthesized service-level entries for
services whose total exceeds the statistical threshold. -/
def statAnoms (ds : List Record) : List Anom :=
  let bys := byServiceD ds
  if bys.isEmpty then []
  else
    let mean := listMean (bys.map Prod.snd)
    let var := listPVar (bys.map Prod.snd)
    (bys.filter fun p => exceedsThreshold mean var p.2).map fun p => Anom.svc p.1 p.2

/-- `LLMEngine._detect_anomalies`: explicit per-record pass followed by
the statistical per-service pass, plus the `{count}` summary. -/
def detect_anomalies (ds : List Record) : List Anom × Nat :=
  let anoms := (ds.filter isExplicitAnom).map Anom.record ++ statAnoms ds
  (anoms, anoms.length)

/-- Python `round` to an integer: round half to even. -/
def roundHalfEven (q : ℚ) : ℤ :=
  if q - ⌊q⌋ = 1 / 2 then (if Even ⌊q⌋ then ⌊q⌋ else ⌊q⌋ + 1) else round q

/-- Python `round(x, 2)`. -/
def round2 (q : ℚ) : ℚ := (roundHalfEven (q * 100) : ℚ) / 100

/-- Insert a pair into a cost-descending list, after all entries with a
cost greater than or equal to its own (stability of Python `sorted`). -/
def insertDesc (p : String × ℚ) : List (String × ℚ) → List (String × ℚ)
  | [] => [p]
  | q :: rest => if q.2 < p.2 then p :: q :: rest else q :: insertDesc p rest

/-- `sorted(items, key=lambda x: x[1], reverse=True)` (stable). -/
def sortDesc (l : List (String × ℚ)) : List (String × ℚ) :=
  l.foldl (fun acc p => insertDesc p acc) []

/-- Insert a pair into a key-ascending list (keys here are distinct dict
keys, so ties never arise). -/
def insertAsc (p : String × ℚ) : List (String × ℚ) → List (String × ℚ)
  | [] => [p]
  | q :: rest => if p.1 < q.1 then p :: q :: rest else q :: insertAsc p rest

/-- `sorted(by_date.items())`: ascending by the (distinct) date keys. -/
def sortAsc (l : List (String × ℚ)) : List (String × ℚ) :=
  l.foldl (fun acc p => insertAsc p acc) []

/-- `DatasetSummary`: the dict built by `LLMEngine._dataset_summary`. -/
structure DatasetSummary where
  total_cost_usd : ℚ
  records : Nat
  service_breakdown : List (String × ℚ)
  region_breakdown : List (String × ℚ)
  top_services : List (String × ℚ)
  dominant_intent : String
deriving DecidableEq, Repr

/-- `LLMEngine._dataset_summary`. -/
def dataset_summary (ds : List Record) : DatasetSummary :=
  let bys := groupSum (ds.map fun r => (svcOfS r, costOf r))
  let byr := groupSum (ds.map fun r => (regOf r, costOf r))
  { total_cost_usd := round2 ((ds.map costOf).sum)
    records := ds.length
    service_breakdown := bys
    region_breakdown := byr
    top_services := (sortDesc bys).take 5
    dominant_intent := if ds.any (fun r => r.anomaly_flag) then "anomaly" else "insight" }

/-- `s if s else none` for the date chain `usage_date or date`. -/
def nonEmptyOpt : Option String → Option String
  | some s => if s = "" then none else some s
  | none => none

/-- `d = r.get("usage_date") or r.get("date"); if not d: continue`:
the date under which a record is aggregated, `none` when skipped. -/
def dateOf (r : Record) : Option String :=
  match nonEmptyOpt r.usage_date with
  | some s => some s
  | none => nonEmptyOpt r.date

/-- The per-date totals dict of `_forecast_costs`. -/
def byDate (ds : List Record) : List (String × ℚ) :=
  groupSum (ds.filterMap fun r => (dateOf r).map fun d => (d, costOf r))

/-- The last-`min(7, len)`-dates average of the date-sorted series
(`sum(v for _, v in dates[-min(7, len(dates)):]) / min(7, len(dates))`). -/
def lastKAvg (dates : List (String × ℚ)) : ℚ :=
  let k := min 7 dates.length
  ((dates.drop (dates.length - k)).map Prod.snd).sum / k

/-- The moving-average projection of `_forecast_costs` lines 270-272:
`round(avg * (1 + 0.005 * i), 2)` for `i in range(horizon_days)`. -/
def movingAvg (dates : List (String × ℚ)) (horizon : Nat) : List ℚ :=
  (List.range horizon).map fun (i : Nat) =>
    round2 (lastKAvg dates * (1 + (0.005 : ℚ) * (i : ℚ)))

/-- The environment of `_forecast_costs`: whether the Prophet import
succeeded, and the fit/predict oracle (`none` models a raised
exception inside `model.fit` or `model.predict`). -/
structure ForecastEnv where
  prophetAvailable : Bool
  prophetFit : List (String × ℚ) → Nat → Option (List ℚ)

/-- `LLMEngine._forecast_costs`: returns the predicted cost list and the
`forecast_meta.method` string. -/
def forecast_costs (fe : ForecastEnv) (ds : List Record) (horizon : Nat) :
    List ℚ × String :=
  let bd := byDate ds
  if bd.isEmpty then ([], "none")
  else
    let dates := sortAsc bd
    let meta := if fe.prophetAvailable then "prophet" else "moving_average"
    if fe.prophetAvailable ∧ 3 ≤ dates.length then
      match fe.prophetFit dates horizon with
      | some preds => (preds.map round2, meta)
      | none => (movingAvg dates horizon, meta)
    else (movingAvg dates horizon, meta)

/-- Whether `small` occurs at the start of `big` (on character lists). -/
def charsAtStart : List Char → List Char → Bool
  | [], _ => true
  | _ :: _, [] => false
  | a :: as, b :: bs => a = b && charsAtStart as bs

/-- Whether `needle` occurs anywhere inside a character list. -/
def charsInside (needle : List Char) : List Char → Bool
  | [] => needle.isEmpty
  | c :: cs => charsAtStart needle (c :: cs) || charsInside needle cs

/-- Python `needle in hay` on strings. -/
def strContains (hay needle : String) : Bool := charsInside needle.data hay.data

/-- ASCII lowercasing of one character (Python `str.lower`; the engine
only ever compares ASCII recommendation text and keywords). -/
def lowerChar (c : Char) : Char :=
  if 'A' ≤ c ∧ c ≤ 'Z' then Char.ofNat (c.toNat + 32) else c

/-- `s.lower()`. -/
def lowerStr (s : String) : String := ⟨s.data.map lowerChar⟩

/-- The whitespace stripped by Python `str.strip`. -/
def isWsChar (c : Char) : Bool := c = ' ' || c = '\t' || c = '\n' || c = '\r'

/-- `s.strip()` on a character list. -/
def trimChars (l : List Char) : List Char :=
  ((l.dropWhile isWsChar).reverse.dropWhile isWsChar).reverse

/-- `s.strip()`. -/
def trimStr (s : String) : String := ⟨trimChars s.data⟩

/-- The dashboard category returned by `_route_dashboard`. -/
inductive Dashboard where
  | finance
  | it
  | msp
deriving DecidableEq, Repr

/-- Rendering of a `Dashboard` value into the dict string. -/
def dashStr : Dashboard → String
  | .finance => "finance"
  | .it => "it"
  | .msp => "msp"

/-- `LLMEngine._route_dashboard` (its `dataset` and `anomalies`
parameters are unused in the source and omitted here). -/
def route_dashboard (query : String) : Dashboard :=
  let q := lowerStr query
  if ["cost", "budget", "finance"].any (fun k => strContains q k) then .finance
  else if ["anomaly", "usage", "cpu"].any (fun k => strContains q k) then .it
  else if ["tenant", "client", "msp"].any (fun k => strContains q k) then .msp
  else .finance

/-- A raw recommendation as received from a provider: a plain string or
a dict; for a dict we keep the three fields `_tune_recommendations`
reads plus its `str(rec)` rendering. -/
inductive RawRec where
  | str (s : String)
  | obj (recommendation action text : Option String) (asString : String)
deriving DecidableEq, Repr

/-- `rec.get('recommendation') or rec.get('action') or rec.get('text')
or str(rec)` for a dict, `str(rec)` for a string. -/
def recText : RawRec → String
  | .str s => s
  | .obj r a t f => orStr r (orStr a (orStr t f))

/-- `rec_text.lower().strip()`: the case-insensitive dedup key. -/
def keyOfText (t : String) : String := trimStr (lowerStr t)

/-- The dedup loop of `_tune_recommendations`, with the `seen` set
modelled as a list used only through membership. -/
def dedupRecs (seen : List String) : List RawRec → List String
  | [] => []
  | r :: rest =>
    let t := recText r
    if keyOfText t ∈ seen then dedupRecs seen rest
    else t :: dedupRecs (keyOfText t :: seen) rest

/-- The per-dashboard static guidance string appended by
`_tune_recommendations`; the source tests the three categories with
three separate `if`s on the dashboard string, of which exactly one can
hold, so a single append results. -/
def guidance : Dashboard → String
  | .finance => "Set AWS Budget alerts at 80% and 100%."
  | .it => "Review high CPU EC2 instances."
  | .msp => "Prioritize anomalies by tenant SLA."

/-- `LLMEngine._tune_recommendations` (its `anomalies` and `summary`
parameters are unused in the source and omitted here). -/
def tune_recommendations (base : List RawRec) (dashboard : Dashboard) : List String :=
  dedupRecs [] base ++ [guidance dashboard]

/-- The canonical provider response shape the engine reads:
`intent`, `recommendations` and `raw` keys, each possibly absent. -/
structure LLMResponse where
  intent : Option String := none
  recommendations : List RawRec := []
  raw : Option String := none
deriving DecidableEq, Repr

/-- `LLMEngine._build_prompt`.  Serialization of values into the prompt
text uses `reprStr` in place of `json.dumps`; only which data reaches
the prompt matters here, not the exact rendering. -/
def build_prompt (query : String) (dashboard : Dashboard) (summary : DatasetSummary)
    (anomalies : List Anom) (forecast : List ℚ) (context : List String)
    (horizon : Nat) : String :=
  let top := String.intercalate ", "
    (summary.top_services.map fun p => p.1 ++ " ($" ++ toString p.2 ++ ")")
  let ctx := (String.intercalate "\n" context).take 2000
  "You are a cost analysis assistant.\nDASHBOARD: " ++ dashStr dashboard ++
  "\nQUERY: " ++ query ++
  "\nTOP_SERVICES: " ++ top ++
  "\nANOMALIES: " ++ String.intercalate ", " ((anomalies.take 3).map reprStr) ++
  "\nFORECAST_NEXT_" ++ toString horizon ++ "_DAYS: " ++ reprStr forecast ++
  "\nCONTEXT: " ++ ctx ++
  "\nReturn JSON with keys: intent, summary, anomalies, recommendations."

/-- `LLMEngine._local_reasoning`: the deterministic local reasoner. -/
def local_reasoning (summary : DatasetSummary) (anomalies : List Anom) : LLMResponse :=
  let recs1 : List RawRec :=
    if anomalies.isEmpty then []
    else [RawRec.str ("Detected " ++ toString anomalies.length ++
      " anomalies — investigate flagged resources first.")]
  let recs2 : List RawRec :=
    match summary.top_services with
    | [] => []
    | p :: _ => [RawRec.str ("Review top service: " ++ p.1)]
  { intent := some (if anomalies.isEmpty then "insight" else "anomaly")
    recommendations :=
      recs1 ++ recs2 ++ [RawRec.str "Enable S3 lifecycle rules and set budget alerts."]
    raw := some "summary" }

/-- `AnalysisResult`: the dict assembled at the end of
`LLMEngine.analyze`. -/
structure AnalysisResult where
  intent : String
  dashboard : Dashboard
  summary : DatasetSummary
  anomalies : List Anom
  anomaly_count : Nat
  predicted_costs : List ℚ
  forecast_method : String
  recommendations : List String
  engine_used : String
  raw_llm : Option String
  timestamp : String
deriving DecidableEq, Repr

/-- The cache store: newest entry first, read through `cacheGet`. -/
def Cache : Type := List (String × AnalysisResult)

/-- `CacheManager.get`: the most recently stored value under a key. -/
def cacheGet : Cache → String → Option AnalysisResult
  | [], _ => none
  | (k', v) :: rest, k => if k' = k then some v else cacheGet rest k

/-- `CacheManager.set`: store (supersede, never mutate) under a key. -/
def cacheSet (c : Cache) (k : String) (v : AnalysisResult) : Cache := (k, v) :: c

/-- The ambient state `LLMEngine.analyze` reads: Prophet and Gemini
oracles (for Gemini, `none` covers an unavailable provider, a thrown
exception and a null/empty response — all three leave `llm_response`
falsy in the source), the `sha_hash` function, the canonical
`json.dumps(dataset, sort_keys=True)` serialization, and the current
UTC date and timestamp. -/
structure Env where
  prophetAvailable : Bool
  prophetFit : List (String × ℚ) → Nat → Option (List ℚ)
  gemini : String → Option LLMResponse
  shaHash : String → String
  datasetJson : List Record → String
  today : String
  now : String

/-- The cache key built at the top of `analyze`:
`tenant__date__sha(query + ":" + dataset_hash)` with
`dataset_hash = sha(json.dumps(dataset, sort_keys=True))` for a
non-empty dataset and `"empty"` otherwise. -/
def mkKey (env : Env) (tenant query : String) (ds : List Record) : String :=
  let dhash := if ds.isEmpty then "empty" else env.shaHash (env.datasetJson ds)
  tenant ++ "__" ++ env.today ++ "__" ++ env.shaHash (query ++ ":" ++ dhash)

/-- The compute path of `analyze` (everything between the cache read and
the cache write). -/
def computeAnalysis (env : Env) (query : String) (ds : List Record)
    (context : List String) (horizon : Nat) : AnalysisResult :=
  let det := detect_anomalies ds
  let summary := dataset_summary ds
  let dashboard := route_dashboard query
  let fc := forecast_costs ⟨env.prophetAvailable, env.prophetFit⟩ ds horizon
  let prompt := build_prompt query dashboard summary det.1 fc.1 context horizon
  let resp := env.gemini prompt
  let llm := match resp with
    | some r => r
    | none => local_reasoning summary det.1
  { intent := llm.intent.getD summary.dominant_intent
    dashboard := dashboard
    summary := summary
    anomalies := det.1
    anomaly_count := det.2
    predicted_costs := fc.1
    forecast_method := fc.2
    recommendations := tune_recommendations llm.recommendations dashboard
    engine_used := match resp with | some _ => "gemini" | none => "mock"
    raw_llm := llm.raw
    timestamp := env.now ++ "Z" }

/-- `LLMEngine.analyze` for an in-memory record list (`_load_dataset` on
a list input returns it unchanged).  Returns the result, the cache
after the call, and whether the compute path ran. -/
def analyze (env : Env) (tenant : String) (cache : Cache) (query : String)
    (ds : List Record) (context : List String) (horizon : Nat)
    (force_refresh : Bool) : AnalysisResult × Cache × Bool :=
  let key := mkKey env tenant query ds
  match (if force_refresh then none else cacheGet cache key) with
  | some v => (v, cache, false)
  | none =>
    let r := computeAnalysis env query ds context horizon
    (r, cacheSet cache key r, true)

/-- `extract_explicit_anomalies` (enhanced_analysis.py): explicit flag,
or `float(r.get("anomaly_score", 0) or 0) >= 0.8` — note the
non-strict comparison, unlike the strict one in `_detect_anomalies`. -/
def extract_explicit_anomalies (ds : List Record) : List Record :=
  ds.filter fun r => r.anomaly_flag || decide ((0.8 : ℚ) ≤ scoreOf r)

/-- The `cleaned` dict built for an explicit anomaly appended by
`merge_model_and_explicit_anomalies` (its `anomaly_flag` is always
`True` and its `reason` absent, so neither needs a field). -/
structure Cleaned where
  service_name : Option String
  resource_id : Option String
  account_id : Option String
  usage_date : Option String
  cost : Option ℚ
  anomaly_score : Option ℚ
deriving DecidableEq, Repr

/-- Build the `cleaned` dict from a raw record. -/
def cleanedOf (r : Record) : Cleaned :=
  { service_name := orFal r.service_name r.service
    resource_id := r.resource_id
    account_id := r.account_id
    usage_date := orFal r.usage_date r.date
    cost := r.cost
    anomaly_score := r.anomaly_score }

/-- An entry of the merged anomaly list: a detector-output entry kept
verbatim, or a `cleaned` explicit record appended by the merge. -/
inductive Merged where
  | m (a : Anom)
  | ex (c : Cleaned)
deriving DecidableEq, Repr

/-- Python f-string rendering of an optional value (`None` for `none`). -/
def showOpt : Option String → String
  | none => "None"
  | some s => s

/-- `key_for` on a raw dataset record:
`f"{service_name or service}_{resource_id or account_id}_{usage_date or date or ''}"`. -/
def keyRecord (r : Record) : String :=
  showOpt (orFal r.service_name r.service) ++ "_" ++
  showOpt (orFal r.resource_id r.account_id) ++ "_" ++
  (orFal r.usage_date r.date).getD ""

/-- `key_for` on a detector-output entry.  For a synthesized entry the
dict holds only `service_name`, `cost` and `reason`, so the resource
part renders `None` and the date part is empty. -/
def keyAnom : Anom → String
  | .record r => keyRecord r
  | .svc s _ => showOpt (orFal (some s) none) ++ "_None_"

/-- `key_for` on a `cleaned` dict (the stored `service_name` value is
re-tested for falsiness by the f-string chain). -/
def keyCleaned (c : Cleaned) : String :=
  showOpt (orFal c.service_name none) ++ "_" ++
  showOpt (orFal c.resource_id c.account_id) ++ "_" ++
  (orFal c.usage_date none).getD ""

/-- `key_for` on a merged-list entry. -/
def keyMerged : Merged → String
  | .m a => keyAnom a
  | .ex c => keyCleaned c

/-- The second loop of `merge_model_and_explicit_anomalies`: append each
explicit record (as its `cleaned` dict) whose raw key is not yet seen. -/
def mergeGo (acc : List Merged) (seen : List String) : List Record → List Merged
  | [] => acc
  | r :: rest =>
    if keyRecord r ∈ seen then mergeGo acc seen rest
    else mergeGo (acc ++ [Merged.ex (cleanedOf r)]) (keyRecord r :: seen) rest

/-- `merge_model_and_explicit_anomalies`: every model (detector-output)
anomaly is retained verbatim and its key recorded as seen; explicit
records are then appended when their key is new. -/
def merge_anomalies (modelAnoms : List Anom) (explicit : List Record) : List Merged :=
  mergeGo (modelAnoms.map Merged.m) (modelAnoms.map keyAnom) explicit

/-- The key sequence in first-occurrence order, given already-seen keys. -/
def newKeys (seen : List String) : List String → List String
  | [] => []
  | k :: ks => if k ∈ seen then newKeys seen ks else k :: newKeys (k :: seen) ks

/-- The distinct keys of a list in order of first occurrence. -/
def firstSeen (ks : List String) : List String := newKeys [] ks

/-- The total of the values attached to a key. -/
def sumFor (ps : List (String × ℚ)) (k : String) : ℚ :=
  ((ps.filter fun p => p.1 = k).map Prod.snd).sum

/-- The per-service total of the anomaly detector for one service. -/
def serviceTotal (ds : List Record) (s : String) : ℚ :=
  sumFor (ds.map fun r => (svcOfD r, costOf r)) s

/-- The service name an anomaly entry is attributed to. -/
def anomService : Anom → String
  | .record r => svcOfD r
  | .svc s _ => s

/-! ### Concrete example data used by witnesses and counterexamples -/

/-- The regression-test distribution of the spec: five services with
costs 10, 10, 10, 10, 1000. -/
def c3data : List Record :=
  [{ service_name := some "a", cost := some 10 },
   { service_name := some "b", cost := some 10 },
   { service_name := some "c", cost := some 10 },
   { service_name := some "d", cost := some 10 },
   { service_name := some "e", cost := some 1000 }]

/-- Two dated records on two distinct dates. -/
def c4data : List Record :=
  [{ service_name := some "a", usage_date := some "2024-01-01", cost := some 10 },
   { service_name := some "a", usage_date := some "2024-01-02", cost := some 20 }]

/-- A forecast environment in which Prophet imported successfully but
every fit attempt raises. -/
def c4fe : ForecastEnv := ⟨true, fun _ _ => none⟩

/-- A forecast environment in which Prophet imported successfully and
every fit attempt would succeed, returning a recognizable prediction. -/
def c4fe2 : ForecastEnv := ⟨true, fun _ _ => some [999]⟩

/-- An explicitly flagged record, occurring twice in `c8data`. -/
def c8rec : Record :=
  { service_name := some "ec2", resource_id := some "i-1",
    usage_date := some "2024-01-01", cost := some 5, anomaly_flag := true }

/-- A dataset holding the same flagged line item twice. -/
def c8data : List Record := [c8rec, c8rec]

/-- The recommendation list of the spec dedup example. -/
def c9base : List RawRec :=
  [.str "Resize EC2", .str "resize ec2", .str "Resize EC2"]

/-- A flagged and an unflagged witness record. -/
def w2rec : Record := { service_name := some "s3", cost := some 7, anomaly_flag := true }

/-- An unflagged record scoring exactly 0.8. -/
def w2rec2 : Record := { service_name := some "s3", cost := some 2, anomaly_score := some (0.8 : ℚ) }

/-- A single dated record for the moving-average witness. -/
def w5ds : List Record :=
  [{ service_name := some "a", usage_date := some "2024-03-01", cost := some 10 }]

/-- A forecast environment without the Prophet capability. -/
def w5fe : ForecastEnv := ⟨false, fun _ _ => none⟩

/-- Three flagged records followed by an expensive unflagged one. -/
def w10ds : List Record :=
  [{ service_name := some "a", cost := some 1, anomaly_flag := true },
   { service_name := some "b", cost := some 2, anomaly_flag := true },
   { service_name := some "c", cost := some 3, anomaly_flag := true },
   { service_name := some "d", cost := some 4 }]

/-- A fully failing environment: no Prophet, every Gemini call fails. -/
def wEnv : Env :=
  { prophetAvailable := false
    prophetFit := fun _ _ => none
    gemini := fun _ => none
    shaHash := fun s => s
    datasetJson := fun _ => "ds"
    today := "2026-10-12"
    now := "2026-10-12T00:00:00" }

/-! ### Rounding bounds -/

lemma abs_roundHalfEven_sub_le (q : ℚ) : |(roundHalfEven q : ℚ) - q| ≤ 1 / 2 := by
  unfold roundHalfEven
  by_cases h : q - ⌊q⌋ = 1 / 2
  · rw [if_pos h]
    by_cases he : Even ⌊q⌋
    · rw [if_pos he]
      have hv : (⌊q⌋ : ℚ) - q = -(1 / 2) := by linarith
      rw [hv, abs_neg, abs_of_nonneg] <;> norm_num
    · rw [if_neg he]
      have hv : ((⌊q⌋ + 1 : ℤ) : ℚ) - q = 1 / 2 := by push_cast; linarith
      rw [hv, abs_of_nonneg] <;> norm_num
  · rw [if_neg h, abs_sub_comm]
    exact abs_sub_round q

lemma abs_round2_sub_le (q : ℚ) : |round2 q - q| ≤ 1 / 200 := by
  have h := abs_roundHalfEven_sub_le (q * 100)
  unfold round2
  have he : (roundHalfEven (q * 100) : ℚ) / 100 - q =
      ((roundHalfEven (q * 100) : ℚ) - q * 100) / 100 := by ring
  rw [he, abs_div, abs_of_pos (by norm_num : (0 : ℚ) < 100)]
  linarith

/-! ### Sums of grouped totals -/

lemma addTo_snd_sum (acc : List (String × ℚ)) (k : String) (v : ℚ) :
    ((addTo acc k v).map Prod.snd).sum = (acc.map Prod.snd).sum + v := by
  induction acc with
  | nil => simp [addTo]
  | cons p rest ih =>
    obtain ⟨k', v'⟩ := p
    by_cases h : k' = k
    · simp [addTo, h]; ring
    · simp [addTo, h, ih]; ring

lemma groupInto_snd_sum (ps : List (String × ℚ)) : ∀ acc,
    ((groupInto acc ps).map Prod.snd).sum =
      (acc.map Prod.snd).sum + (ps.map Prod.snd).sum := by
  induction ps with
  | nil => intro acc; simp [groupInto]
  | cons p rest ih =>
    intro acc
    simp only [groupInto, ih, addTo_snd_sum, List.map_cons, List.sum_cons]
    ring

/-- C7: the service breakdown of `_dataset_summary` sums to the rounded
`total_cost_usd` to within 0.01, and the empty dataset yields the zeroed
summary. -/
theorem summary_breakdown_consistent :
    (∀ ds, |((dataset_summary ds).service_breakdown.map Prod.snd).sum -
        (dataset_summary ds).total_cost_usd| ≤ 1 / 100)
    ∧ dataset_summary [] =
      { total_cost_usd := 0, records := 0, service_breakdown := [],
        region_breakdown := [], top_services := [], dominant_intent := "insight" } := by
  constructor
  · intro ds
    have hsum : ((dataset_summary ds).service_breakdown.map Prod.snd).sum =
        (ds.map costOf).sum := by
      have h := groupInto_snd_sum (ds.map fun r => (svcOfS r, costOf r)) []
      simpa [dataset_summary, groupSum, List.map_map, Function.comp] using h
    have hb := abs_round2_sub_le ((ds.map costOf).sum)
    rw [hsum]
    have ht : (dataset_summary ds).total_cost_usd = round2 ((ds.map costOf).sum) := rfl
    rw [ht, abs_sub_comm]
    linarith
  · simp [dataset_summary, groupSum, groupInto, sortDesc, round2, roundHalfEven]


/-! ### Characterization of the insertion-ordered grouping dict -/

lemma upd_fst (k : String) (v : ℚ) (q : String × ℚ) :
    ((if q.1 = k then (q.1, q.2 + v) else q) : String × ℚ).1 = q.1 := by
  by_cases h : q.1 = k <;> simp [h]

lemma mapUpd_of_not_mem (acc : List (String × ℚ)) (k : String) (v : ℚ)
    (h : k ∉ acc.map Prod.fst) :
    (acc.map fun q => if q.1 = k then (q.1, q.2 + v) else q) = acc := by
  induction acc with
  | nil => simp
  | cons p rest ih =>
    simp only [List.map_cons, List.mem_cons, not_or] at h ⊢
    rcases h with ⟨h1, h2⟩
    rw [if_neg fun hh => h1 hh.symm, ih h2]

lemma addTo_of_mem : ∀ (acc : List (String × ℚ)) (k : String) (v : ℚ),
    k ∈ acc.map Prod.fst → (acc.map Prod.fst).Nodup →
    addTo acc k v = acc.map fun q => if q.1 = k then (q.1, q.2 + v) else q := by
  intro acc
  induction acc with
  | nil => intro k v h _; simp at h
  | cons p rest ih =>
    intro k v hmem hnd
    obtain ⟨k', v'⟩ := p
    simp only [List.map_cons, List.mem_cons, List.nodup_cons] at hmem hnd
    by_cases h : k' = k
    · subst h
      rw [addTo, if_pos rfl, List.map_cons, mapUpd_of_not_mem rest k' v hnd.1]
      simp
    · rw [addTo, if_neg h]
      have hm : k ∈ rest.map Prod.fst := by
        rcases hmem with h1 | h1
        · exact absurd h1.symm h
        · exact h1
      rw [List.map_cons, if_neg fun hh => h hh, ih k v hm hnd.2]

lemma addTo_of_not_mem : ∀ (acc : List (String × ℚ)) (k : String) (v : ℚ),
    k ∉ acc.map Prod.fst → addTo acc k v = acc ++ [(k, v)] := by
  intro acc
  induction acc with
  | nil => intro k v _; rfl
  | cons p rest ih =>
    intro k v h
    obtain ⟨k', v'⟩ := p
    simp only [List.map_cons, List.mem_cons, not_or] at h
    rw [addTo, if_neg fun hh => h.1 hh.symm, ih k v h.2]
    rfl

lemma map_upd_keys (acc : List (String × ℚ)) (k : String) (v : ℚ) :
    ((acc.map fun q => if q.1 = k then (q.1, q.2 + v) else q).map Prod.fst) =
      acc.map Prod.fst := by
  rw [List.map_map]
  exact List.map_congr_left fun q _ => upd_fst k v q

lemma newKeys_congr : ∀ (ks s₁ s₂ : List String),
    (∀ x, x ∈ s₁ ↔ x ∈ s₂) → newKeys s₁ ks = newKeys s₂ ks := by
  intro ks
  induction ks with
  | nil => intro _ _ _; rfl
  | cons k rest ih =>
    intro s₁ s₂ h
    by_cases hk : k ∈ s₁
    · rw [newKeys, if_pos hk, newKeys, if_pos ((h k).mp hk), ih _ _ h]
    · rw [newKeys, if_neg hk, newKeys, if_neg fun hc => hk ((h k).mpr hc)]
      congr 1
      exact ih _ _ (by intro x; simp [h x])

lemma newKeys_not_mem_seen : ∀ (ks seen : List String) (x : String),
    x ∈ newKeys seen ks → x ∉ seen := by
  intro ks
  induction ks with
  | nil => intro seen x h; simp [newKeys] at h
  | cons k rest ih =>
    intro seen x h
    by_cases hk : k ∈ seen
    · rw [newKeys, if_pos hk] at h
      exact ih seen x h
    · rw [newKeys, if_neg hk] at h
      rcases List.mem_cons.mp h with h1 | h1
      · subst h1; exact hk
      · intro hs
        exact ih (k :: seen) x h1 (List.mem_cons_of_mem k hs)

lemma newKeys_nodup : ∀ (ks seen : List String), (newKeys seen ks).Nodup := by
  intro ks
  induction ks with
  | nil => intro seen; simp [newKeys]
  | cons k rest ih =>
    intro seen
    by_cases hk : k ∈ seen
    · rw [newKeys, if_pos hk]; exact ih seen
    · rw [newKeys, if_neg hk]
      refine List.nodup_cons.mpr ⟨?_, ih (k :: seen)⟩
      intro hc
      exact newKeys_not_mem_seen rest (k :: seen) k hc (List.mem_cons_self k seen)

lemma sumFor_nil (k : String) : sumFor [] k = 0 := rfl

lemma sumFor_cons (p : String × ℚ) (ps : List (String × ℚ)) (k : String) :
    sumFor (p :: ps) k = (if p.1 = k then p.2 else 0) + sumFor ps k := by
  by_cases h : p.1 = k <;> simp [sumFor, List.filter_cons, h]

lemma sumFor_cons_ne (p : String × ℚ) (ps : List (String × ℚ)) (k : String)
    (h : k ≠ p.1) : sumFor (p :: ps) k = sumFor ps k := by
  rw [sumFor_cons, if_neg fun hh => h hh.symm, zero_add]

lemma groupInto_char : ∀ (ps : List (String × ℚ)) (acc : List (String × ℚ)),
    (acc.map Prod.fst).Nodup →
    groupInto acc ps =
      acc.map (fun q => (q.1, q.2 + sumFor ps q.1)) ++
      ((newKeys (acc.map Prod.fst) (ps.map Prod.fst)).map fun k => (k, sumFor ps k)) := by
  intro ps
  induction ps with
  | nil =>
    intro acc _
    simp [groupInto, newKeys, sumFor_nil]
  | cons p rest ih =>
    intro acc hnd
    by_cases hp : p.1 ∈ acc.map Prod.fst
    · rw [groupInto, addTo_of_mem acc p.1 p.2 hp hnd,
        ih _ (by rw [map_upd_keys]; exact hnd), map_upd_keys,
        List.map_cons, newKeys, if_pos hp]
      congr 1
      · rw [List.map_map]
        refine List.map_congr_left fun q _ => ?_
        simp only [Function.comp_apply]
        by_cases hq : q.1 = p.1
        · rw [if_pos hq]
          simp only [Prod.mk.injEq, true_and]
          rw [hq, sumFor_cons, if_pos rfl]
          ring
        · rw [if_neg hq, sumFor_cons_ne p rest q.1 hq]
      · refine List.map_congr_left fun k hk => ?_
        have hne : k ≠ p.1 := fun hh =>
          newKeys_not_mem_seen _ _ k hk (hh ▸ hp)
        rw [sumFor_cons_ne p rest k hne]
    · have hnd' : ((acc ++ [(p.1, p.2)]).map Prod.fst).Nodup := by
        simp only [List.map_append, List.map_cons, List.map_nil]
        rw [List.nodup_append]
        refine ⟨hnd, List.nodup_singleton _, ?_⟩
        intro a ha hb
        simp only [List.mem_singleton] at hb
        subst hb
        exact hp ha
      rw [groupInto, addTo_of_not_mem acc p.1 p.2 hp, ih _ hnd']
      simp only [List.map_append, List.map_cons, List.map_nil]
      rw [newKeys, if_neg hp]
      have hseen : newKeys (acc.map Prod.fst ++ [p.1]) (rest.map Prod.fst) =
          newKeys (p.1 :: acc.map Prod.fst) (rest.map Prod.fst) := by
        refine newKeys_congr _ _ _ fun x => ?_
        simp [or_comm]
      rw [hseen, List.map_cons, List.append_assoc]
      congr 1
      · refine List.map_congr_left fun q hq => ?_
        have hne : q.1 ≠ p.1 := fun hh => hp (hh ▸ List.mem_map_of_mem Prod.fst hq)
        rw [sumFor_cons_ne p rest q.1 hne]
      · rw [sumFor_cons, if_pos rfl, List.singleton_append]
        congr 1
        refine List.map_congr_left fun k hk => ?_
        have hne : k ≠ p.1 := fun hh =>
          newKeys_not_mem_seen _ _ k hk (hh ▸ List.mem_cons_self _ _)
        rw [sumFor_cons_ne p rest k hne]

lemma groupSum_char (ps : List (String × ℚ)) :
    groupSum ps = (firstSeen (ps.map Prod.fst)).map fun k => (k, sumFor ps k) := by
  have h := groupInto_char ps [] (by simp)
  simpa [groupSum, firstSeen] using h

lemma byServiceD_char (ds : List Record) :
    byServiceD ds = (firstSeen (ds.map svcOfD)).map fun s => (s, serviceTotal ds s) := by
  simp [byServiceD, groupSum_char, serviceTotal, List.map_map, Function.comp_def]

lemma listPVar_nonneg (vs : List ℚ) : 0 ≤ listPVar vs := by
  unfold listPVar
  apply div_nonneg
  · apply List.sum_nonneg
    intro x hx
    simp only [List.mem_map] at hx
    obtain ⟨v, _, rfl⟩ := hx
    positivity
  · exact_mod_cast Nat.zero_le _

lemma sqrt_nine_mul (v : ℝ) (hv : 0 ≤ v) :
    Real.sqrt (9 * v) = 3 * Real.sqrt v := by
  rw [show (9 : ℝ) * v = 3 ^ 2 * v by ring, Real.sqrt_mul (by positivity),
    Real.sqrt_sq (by norm_num)]

lemma exceedsThreshold_iff_spec (mean var tot : ℚ) (hv : 0 ≤ var) :
    exceedsThreshold mean var tot = true ↔
      (if 0 < var then (mean : ℝ) + 3 * Real.sqrt (var : ℝ) < (tot : ℝ)
       else 2 * mean < tot) := by
  unfold exceedsThreshold
  by_cases h : 0 < var
  · rw [if_pos h, if_pos h]
    simp only [Bool.and_eq_true, decide_eq_true_eq]
    have hvr : (0 : ℝ) < (var : ℝ) := by exact_mod_cast h
    have hs3 : (0 : ℝ) < Real.sqrt (var : ℝ) := Real.sqrt_pos.mpr hvr
    constructor
    · rintro ⟨h1, h2⟩
      have hx : (0 : ℝ) < (tot : ℝ) - (mean : ℝ) := by
        have hc : (mean : ℝ) < (tot : ℝ) := by exact_mod_cast h1
        linarith
      have h9 : (9 : ℝ) * (var : ℝ) < ((tot : ℝ) - (mean : ℝ)) ^ 2 := by
        exact_mod_cast h2
      have hs := (Real.sqrt_lt' hx).mpr h9
      rw [sqrt_nine_mul _ hvr.le] at hs
      linarith
    · intro h3
      have hx : (0 : ℝ) < (tot : ℝ) - (mean : ℝ) := by nlinarith
      refine ⟨by exact_mod_cast (by nlinarith : (mean : ℝ) < (tot : ℝ)), ?_⟩
      have hs : Real.sqrt (9 * (var : ℝ)) < (tot : ℝ) - (mean : ℝ) := by
        rw [sqrt_nine_mul _ hvr.le]
        linarith
      have h9 := (Real.sqrt_lt' hx).mp hs
      exact_mod_cast h9
  · rw [if_neg h, if_neg h]
    simp

lemma statAnoms_mem (ds : List Record) (s : String) (c : ℚ) :
    Anom.svc s c ∈ statAnoms ds ↔
      ((s, c) ∈ byServiceD ds ∧
        exceedsThreshold (listMean ((byServiceD ds).map Prod.snd))
          (listPVar ((byServiceD ds).map Prod.snd)) c = true) := by
  unfold statAnoms
  by_cases hbe : (byServiceD ds).isEmpty
  · rw [if_pos hbe]
    have he : byServiceD ds = [] := List.isEmpty_iff.mp hbe
    simp [he]
  · rw [if_neg hbe]
    simp only [List.mem_map, List.mem_filter, Anom.svc.injEq]
    constructor
    · rintro ⟨⟨s', c'⟩, ⟨h1, h2⟩, rfl, rfl⟩
      exact ⟨h1, h2⟩
    · rintro ⟨h1, h2⟩
      exact ⟨(s, c), ⟨h1, h2⟩, rfl, rfl⟩

lemma statAnoms_shape (ds : List Record) :
    ∀ a ∈ statAnoms ds, ∃ s c, a = Anom.svc s c := by
  intro a ha
  unfold statAnoms at ha
  by_cases hbe : (byServiceD ds).isEmpty
  · rw [if_pos hbe] at ha
    simp at ha
  · rw [if_neg hbe] at ha
    simp only [List.mem_map] at ha
    obtain ⟨p, _, rfl⟩ := ha
    exact ⟨p.1, p.2, rfl⟩

lemma statAnoms_no_record (ds : List Record) (r : Record) :
    Anom.record r ∉ statAnoms ds := by
  intro h
  obtain ⟨s, c, hc⟩ := statAnoms_shape ds _ h
  exact absurd hc (by simp)

/-- C2: a record explicitly flagged or scoring strictly above 0.8 always
appears verbatim in the detector output; an unflagged record scoring at
most 0.8 never appears as a per-record entry. -/
theorem explicit_anomaly_membership (ds : List Record) (r : Record) :
    (r ∈ ds → (r.anomaly_flag = true ∨ (0.8 : ℚ) < scoreOf r) →
      Anom.record r ∈ (detect_anomalies ds).1)
    ∧ (r.anomaly_flag = false → scoreOf r ≤ 0.8 →
      Anom.record r ∉ (detect_anomalies ds).1) := by
  constructor
  · intro hmem hflag
    simp only [detect_anomalies, List.mem_append]
    left
    refine List.mem_map_of_mem _ (List.mem_filter.mpr ⟨hmem, ?_⟩)
    rcases hflag with h | h
    · simp [isExplicitAnom, h]
    · simp [isExplicitAnom, h]
  · intro hf hs hmem
    simp only [detect_anomalies, List.mem_append] at hmem
    rcases hmem with h | h
    · simp only [List.mem_map] at h
      obtain ⟨r', hr', heq⟩ := h
      have hrr : r' = r := by simpa using heq
      subst hrr
      have hx := (List.mem_filter.mp hr').2
      simp only [isExplicitAnom, Bool.or_eq_true, decide_eq_true_eq] at hx
      rcases hx with hx | hx
      · rw [hf] at hx
        exact Bool.false_ne_true hx
      · exact absurd hx (not_lt.mpr hs)
    · exact statAnoms_no_record ds r h

/-- C3: the detector statistical pass works on per-service totals in
first-occurrence order; a synthesized entry appears for a service iff its
total strictly exceeds the threshold mean + 3 * sigma (population sigma,
when positive) or twice the mean (otherwise); and on service costs
[10, 10, 10, 10, 1000] no statistical anomaly is flagged. -/
theorem statistical_threshold_exact :
    (∀ ds, byServiceD ds = (firstSeen (ds.map svcOfD)).map fun s => (s, serviceTotal ds s))
    ∧ (∀ ds s c, Anom.svc s c ∈ statAnoms ds ↔
        ((s, c) ∈ byServiceD ds ∧
          (if 0 < listPVar ((byServiceD ds).map Prod.snd) then
            (listMean ((byServiceD ds).map Prod.snd) : ℝ) +
              3 * Real.sqrt ((listPVar ((byServiceD ds).map Prod.snd) : ℝ)) < (c : ℝ)
           else 2 * listMean ((byServiceD ds).map Prod.snd) < c)))
    ∧ statAnoms c3data = [] := by
  refine ⟨byServiceD_char, fun ds s c => ?_, ?_⟩
  · rw [statAnoms_mem ds s c, and_congr_right_iff]
    intro _
    rw [exceedsThreshold_iff_spec _ _ _ (listPVar_nonneg _)]
  · simp +decide only [statAnoms, byServiceD, groupSum, groupInto, addTo, listMean,
      listPVar, exceedsThreshold, svcOfD, costOf, orStr, c3data]
    norm_num

lemma byServiceD_keys (ds : List Record) :
    (byServiceD ds).map Prod.fst = firstSeen (ds.map svcOfD) := by
  rw [byServiceD_char, List.map_map]
  simp [Function.comp_def]

/-- C10: the detector output lists the explicitly flagged records first,
in dataset order, then only synthesized service entries in the order of
each service's first occurrence; hence the first three anomalies put into
the prompt are all explicit records whenever at least three exist. -/
theorem anomaly_list_order (ds : List Record) :
    (detect_anomalies ds).1 = (ds.filter isExplicitAnom).map Anom.record ++ statAnoms ds
    ∧ (∀ a ∈ statAnoms ds, ∃ s c, a = Anom.svc s c)
    ∧ ((statAnoms ds).map anomService).Sublist (firstSeen (ds.map svcOfD))
    ∧ (3 ≤ (ds.filter isExplicitAnom).length →
        ((detect_anomalies ds).1.take 3 =
            ((ds.filter isExplicitAnom).map Anom.record).take 3
        ∧ ∀ q dash summ fc ctx h,
            build_prompt q dash summ ((detect_anomalies ds).1) fc ctx h =
            build_prompt q dash summ ((ds.filter isExplicitAnom).map Anom.record) fc ctx h)) := by
  have hdet : (detect_anomalies ds).1 =
      (ds.filter isExplicitAnom).map Anom.record ++ statAnoms ds := rfl
  refine ⟨hdet, statAnoms_shape ds, ?_, ?_⟩
  · unfold statAnoms
    by_cases hbe : (byServiceD ds).isEmpty
    · rw [if_pos hbe]
      simp
    · rw [if_neg hbe]
      have hsub := (List.filter_sublist (l := byServiceD ds)
        (p := fun p => exceedsThreshold (listMean ((byServiceD ds).map Prod.snd))
          (listPVar ((byServiceD ds).map Prod.snd)) p.2)).map Prod.fst
      rw [byServiceD_keys] at hsub
      simpa [List.map_map, Function.comp_def] using hsub
  · intro h3
    have hlen : 3 ≤ ((ds.filter isExplicitAnom).map Anom.record).length := by
      simpa using h3
    have htake : ((ds.filter isExplicitAnom).map Anom.record ++ statAnoms ds).take 3 =
        ((ds.filter isExplicitAnom).map Anom.record).take 3 :=
      List.take_append_of_le_length hlen
    refine ⟨by rw [hdet, htake], fun q dash summ fc ctx h => ?_⟩
    simp only [build_prompt]
    rw [hdet, htake]

/-- C4 counterexample: with the Prophet capability available and only two
distinct usage dates, the moving-average step runs (the regression needs
three dates) yet `forecast_meta.method` still reads `"prophet"`. -/
theorem forecast_meta_counterexample :
    (sortAsc (byDate c4data)).length = 2 ∧
    (forecast_costs c4fe c4data 5).2 = "prophet" ∧
    "prophet" ≠ "moving_average" := by
  refine ⟨?_, ?_, by decide⟩
  · simp +decide only [sortAsc, byDate, groupSum, groupInto, addTo, dateOf, nonEmptyOpt,
      costOf, c4data, insertAsc, List.foldl, List.filterMap, List.map]
    split <;> rfl
  · simp +decide only [forecast_costs, c4fe, sortAsc, byDate, groupSum, groupInto, addTo,
      dateOf, nonEmptyOpt, costOf, c4data, insertAsc, List.foldl, List.filterMap, List.map]
    split <;> simp_all <;> split <;> rfl

/-- C4 amended: no dated records give an empty forecast with method
`"none"`; a regression failure falls through to the moving average; with
the capability missing or fewer than 3 distinct dates the regression
never executes and the moving average runs whatever the fit oracle would
return; but whenever dated records exist the method string records only
whether the Prophet capability is available, not which path executed. -/
theorem forecast_method_amended (fe : ForecastEnv) (ds : List Record) (h : Nat) :
    (byDate ds = [] → forecast_costs fe ds h = ([], "none"))
    ∧ (byDate ds ≠ [] → (forecast_costs fe ds h).2 =
        (if fe.prophetAvailable then "prophet" else "moving_average"))
    ∧ (byDate ds ≠ [] → fe.prophetFit (sortAsc (byDate ds)) h = none →
        (forecast_costs fe ds h).1 = movingAvg (sortAsc (byDate ds)) h)
    ∧ (byDate ds ≠ [] →
        (fe.prophetAvailable = false ∨ (sortAsc (byDate ds)).length < 3) →
        (forecast_costs fe ds h).1 = movingAvg (sortAsc (byDate ds)) h) := by
  by_cases hbe : (byDate ds).isEmpty
  · have he : byDate ds = [] := List.isEmpty_iff.mp hbe
    refine ⟨fun _ => ?_, fun hne => absurd he hne, fun hne _ => absurd he hne,
      fun hne _ => absurd he hne⟩
    unfold forecast_costs
    rw [if_pos hbe]
  · have hne' : byDate ds ≠ [] := fun hh => hbe (by simp [hh])
    refine ⟨fun he => absurd he hne', fun _ => ?_, fun _ hf => ?_, fun _ hnp => ?_⟩
    · unfold forecast_costs
      rw [if_neg hbe]
      by_cases hc : fe.prophetAvailable = true ∧ 3 ≤ (sortAsc (byDate ds)).length
      · rw [if_pos hc]
        cases hfit : fe.prophetFit (sortAsc (byDate ds)) h <;> simp [hfit]
      · rw [if_neg hc]
    · unfold forecast_costs
      rw [if_neg hbe]
      by_cases hc : fe.prophetAvailable = true ∧ 3 ≤ (sortAsc (byDate ds)).length
      · rw [if_pos hc, hf]
      · rw [if_neg hc]
    · unfold forecast_costs
      rw [if_neg hbe]
      have hc : ¬ (fe.prophetAvailable = true ∧ 3 ≤ (sortAsc (byDate ds)).length) := by
        rcases hnp with hnp | hnp
        · exact fun hc => by rw [hnp] at hc; exact Bool.false_ne_true hc.1
        · exact fun hc => absurd hc.2 (by omega)
      rw [if_neg hc]

/-- C5: whenever the moving-average step produces the forecast, it emits
exactly `horizon` values, the i-th being `round(avg * (1 + 0.005*i), 2)`
for the last-`min(7, n)`-dates average `avg`. -/
theorem moving_average_formula (fe : ForecastEnv) (ds : List Record) (h : Nat)
    (hne : byDate ds ≠ [])
    (hfall : fe.prophetAvailable = false ∨ (sortAsc (byDate ds)).length < 3 ∨
      fe.prophetFit (sortAsc (byDate ds)) h = none) :
    ((forecast_costs fe ds h).1).length = h ∧
    ∀ i : Nat, i < h → ((forecast_costs fe ds h).1)[i]? =
      some (round2 (lastKAvg (sortAsc (byDate ds)) * (1 + (0.005 : ℚ) * (i : ℚ)))) := by
  have hbe : ¬ (byDate ds).isEmpty := by simpa [List.isEmpty_iff] using hne
  have hmv : (forecast_costs fe ds h).1 = movingAvg (sortAsc (byDate ds)) h := by
    unfold forecast_costs
    rw [if_neg hbe]
    by_cases hc : fe.prophetAvailable = true ∧ 3 ≤ (sortAsc (byDate ds)).length
    · rw [if_pos hc]
      rcases hfall with hf | hf | hf
      · rw [hf] at hc
        exact absurd hc.1 (by simp)
      · exact absurd hc.2 (by omega)
      · rw [hf]
    · rw [if_neg hc]
  rw [hmv]
  unfold movingAvg
  refine ⟨by rw [List.length_map, List.length_range], fun i hi => ?_⟩
  rw [List.getElem?_map, List.getElem?_range hi]
  rfl

lemma cacheGet_set (c : Cache) (k : String) (v : AnalysisResult) :
    cacheGet (cacheSet c k v) k = some v := by
  simp [cacheGet, cacheSet]

/-- C1: when every provider invocation fails (is unavailable, raises, or
returns a null/empty response), `analyze` still returns, with
`engine_used = "mock"` and a non-empty recommendation list. -/
theorem all_providers_fail_mock (env : Env) (tenant query : String) (ds : List Record)
    (ctx : List String) (horizon : Nat)
    (hg : ∀ p, env.gemini p = none) :
    (analyze env tenant [] query ds ctx horizon false).1.engine_used = "mock"
    ∧ (analyze env tenant [] query ds ctx horizon false).1.recommendations ≠ [] := by
  have ha : analyze env tenant [] query ds ctx horizon false =
      (computeAnalysis env query ds ctx horizon,
       cacheSet [] (mkKey env tenant query ds) (computeAnalysis env query ds ctx horizon),
       true) := rfl
  rw [ha]
  constructor
  · simp only [computeAnalysis, hg]
  · simp only [computeAnalysis, hg, tune_recommendations]
    simp

/-- C6: with an identical tenant, query, dataset, and environment (same
UTC date), a second non-forced `analyze` call returns exactly the value
the first call left in the cache without running the compute path, and a
forced call recomputes but still stores its fresh result under the key. -/
theorem cache_idempotent_and_refresh (env : Env) (tenant query : String)
    (ds : List Record) (ctx : List String) (horizon : Nat) (c0 : Cache) :
    (analyze env tenant (analyze env tenant c0 query ds ctx horizon false).2.1
        query ds ctx horizon false) =
      ((analyze env tenant c0 query ds ctx horizon false).1,
       (analyze env tenant c0 query ds ctx horizon false).2.1, false)
    ∧ (analyze env tenant c0 query ds ctx horizon true).2.2 = true
    ∧ cacheGet (analyze env tenant c0 query ds ctx horizon true).2.1
        (mkKey env tenant query ds) =
      some (analyze env tenant c0 query ds ctx horizon true).1 := by
  refine ⟨?_, rfl, ?_⟩
  · cases hc : cacheGet c0 (mkKey env tenant query ds) with
    | some v =>
      have h1 : analyze env tenant c0 query ds ctx horizon false = (v, c0, false) := by
        unfold analyze
        simp [hc]
      rw [h1]
      unfold analyze
      simp [hc, h1]
    | none =>
      have h1 : analyze env tenant c0 query ds ctx horizon false =
          (computeAnalysis env query ds ctx horizon,
           cacheSet c0 (mkKey env tenant query ds)
             (computeAnalysis env query ds ctx horizon), true) := by
        unfold analyze
        simp [hc]
      rw [h1]
      unfold analyze
      simp [cacheGet_set]
  · have h2 : analyze env tenant c0 query ds ctx horizon true =
        (computeAnalysis env query ds ctx horizon,
         cacheSet c0 (mkKey env tenant query ds)
           (computeAnalysis env query ds ctx horizon), true) := rfl
    rw [h2]
    exact cacheGet_set _ _ _


lemma dedupRecs_sublist : ∀ (l : List RawRec) (seen : List String),
    (dedupRecs seen l).Sublist (l.map recText) := by
  intro l
  induction l with
  | nil => intro seen; simp [dedupRecs]
  | cons r rest ih =>
    intro seen
    rw [dedupRecs]
    by_cases hk : keyOfText (recText r) ∈ seen
    · rw [if_pos hk]
      exact (ih seen).cons _
    · rw [if_neg hk]
      exact (ih _).cons₂ _

lemma dedupRecs_keys_fresh : ∀ (l : List RawRec) (seen : List String),
    ((dedupRecs seen l).map keyOfText).Nodup ∧
      ∀ x ∈ (dedupRecs seen l).map keyOfText, x ∉ seen := by
  intro l
  induction l with
  | nil => intro seen; simp [dedupRecs]
  | cons r rest ih =>
    intro seen
    rw [dedupRecs]
    by_cases hk : keyOfText (recText r) ∈ seen
    · rw [if_pos hk]
      exact ih seen
    · rw [if_neg hk]
      obtain ⟨hnd, hfresh⟩ := ih (keyOfText (recText r) :: seen)
      simp only [List.map_cons, List.nodup_cons]
      refine ⟨⟨?_, hnd⟩, ?_⟩
      · intro hc
        exact hfresh _ hc (List.mem_cons_self _ _)
      · intro x hx
        rcases List.mem_cons.mp hx with rfl | hx
        · exact hk
        · intro hs
          exact hfresh x hx (List.mem_cons_of_mem _ hs)

lemma dedupRecs_complete : ∀ (l : List RawRec) (seen : List String), ∀ b ∈ l,
    keyOfText (recText b) ∈ seen ∨
      keyOfText (recText b) ∈ (dedupRecs seen l).map keyOfText := by
  intro l
  induction l with
  | nil => intro seen b hb; simp at hb
  | cons r rest ih =>
    intro seen b hb
    rw [dedupRecs]
    by_cases hk : keyOfText (recText r) ∈ seen
    · rw [if_pos hk]
      rcases List.mem_cons.mp hb with rfl | hb
      · left; exact hk
      · exact ih seen b hb
    · rw [if_neg hk]
      rcases List.mem_cons.mp hb with rfl | hb
      · right; simp
      · rcases ih (keyOfText (recText r) :: seen) b hb with h | h
        · rcases List.mem_cons.mp h with heq | h
          · right
            simp [heq]
          · left; exact h
        · right
          simp only [List.map_cons, List.mem_cons]
          right; exact h

/-- C9: the tuner reduces every entry to text, removes case-insensitive
duplicates keeping the first occurrence and the original order, appends
exactly the static guidance string of the dashboard category at the end,
and in particular maps the spec example to one dynamic entry plus the
per-category static entry. -/
theorem recommendations_dedup :
    (∀ (base : List RawRec) (cat : Dashboard),
      tune_recommendations base cat ≠ []
      ∧ (tune_recommendations base cat).getLast? = some (guidance cat)
      ∧ ((tune_recommendations base cat).dropLast.map keyOfText).Nodup
      ∧ ((tune_recommendations base cat).dropLast).Sublist (base.map recText)
      ∧ ∀ b ∈ base, keyOfText (recText b) ∈
          ((tune_recommendations base cat).dropLast.map keyOfText))
    ∧ (∀ cat, tune_recommendations c9base cat = ["Resize EC2", guidance cat]) := by
  constructor
  · intro base cat
    have hdl : (tune_recommendations base cat).dropLast = dedupRecs [] base := by
      simp [tune_recommendations]
    refine ⟨by simp [tune_recommendations], ?_, ?_, ?_, ?_⟩
    · simp [tune_recommendations]
    · rw [hdl]
      exact (dedupRecs_keys_fresh base []).1
    · rw [hdl]
      exact dedupRecs_sublist base []
    · intro b hb
      rw [hdl]
      rcases dedupRecs_complete base [] b hb with h | h
      · simp at h
      · exact h
  · intro cat
    cases cat <;> decide


lemma mergeGo_spec : ∀ (ex : List Record) (acc : List Merged) (seen : List String),
    ∃ rs : List Record,
      mergeGo acc seen ex = acc ++ rs.map (fun r => Merged.ex (cleanedOf r))
      ∧ (∀ r ∈ rs, r ∈ ex ∧ keyRecord r ∉ seen)
      ∧ (rs.map keyRecord).Nodup
      ∧ (∀ r ∈ ex, keyRecord r ∈ seen ∨ keyRecord r ∈ rs.map keyRecord) := by
  intro ex
  induction ex with
  | nil =>
    intro acc seen
    exact ⟨[], by simp [mergeGo], by simp, by simp, by simp⟩
  | cons r rest ih =>
    intro acc seen
    by_cases hk : keyRecord r ∈ seen
    · obtain ⟨rs, h1, h2, h3, h4⟩ := ih acc seen
      refine ⟨rs, ?_, ?_, h3, ?_⟩
      · rw [mergeGo, if_pos hk, h1]
      · intro r' hr'
        exact ⟨List.mem_cons_of_mem _ (h2 r' hr').1, (h2 r' hr').2⟩
      · intro r' hr'
        rcases List.mem_cons.mp hr' with rfl | hr'
        · left; exact hk
        · exact h4 r' hr'
    · obtain ⟨rs, h1, h2, h3, h4⟩ :=
        ih (acc ++ [Merged.ex (cleanedOf r)]) (keyRecord r :: seen)
      refine ⟨r :: rs, ?_, ?_, ?_, ?_⟩
      · rw [mergeGo, if_neg hk, h1, List.append_assoc]
        simp
      · intro r' hr'
        rcases List.mem_cons.mp hr' with rfl | hr'
        · exact ⟨List.mem_cons_self _ _, hk⟩
        · have h := h2 r' hr'
          exact ⟨List.mem_cons_of_mem _ h.1, fun hs => h.2 (List.mem_cons_of_mem _ hs)⟩
      · simp only [List.map_cons, List.nodup_cons]
        refine ⟨?_, h3⟩
        intro hc
        simp only [List.mem_map] at hc
        obtain ⟨r', hr', heq⟩ := hc
        exact (h2 r' hr').2 (heq ▸ List.mem_cons_self _ _)
      · intro r' hr'
        rcases List.mem_cons.mp hr' with rfl | hr'
        · right; simp
        · rcases h4 r' hr' with h | h
          · rcases List.mem_cons.mp h with heq | h
            · right; simp [heq]
            · left; exact h
          · right
            simp only [List.map_cons, List.mem_cons]
            right; exact h

/-- C8 counterexample: a dataset repeating the same flagged line item
twice yields two merged entries sharing one composite key, so the merged
anomaly list is not deduplicated per key. -/
theorem merge_duplicate_key_counterexample :
    ¬ (((merge_anomalies (detect_anomalies c8data).1
        (extract_explicit_anomalies c8data)).map keyMerged).Nodup) := by
  have hdet : (detect_anomalies c8data).1 = [Anom.record c8rec, Anom.record c8rec] := by
    simp +decide only [detect_anomalies, c8data, c8rec, isExplicitAnom, scoreOf,
      statAnoms, byServiceD, groupSum, groupInto, addTo, listMean, listPVar,
      exceedsThreshold, svcOfD, costOf, orStr, List.filter, List.map]
    norm_num
  rw [hdet]
  simp +decide only [merge_anomalies, mergeGo, extract_explicit_anomalies, c8data, c8rec,
    scoreOf, keyMerged, keyAnom, keyRecord, keyCleaned, cleanedOf, orFal, showOpt,
    List.filter, List.map]

/-- C8 amended: the merge keeps every detector-output entry verbatim (in
particular duplicate composite keys among them survive), then appends the
cleaned form of each separately-extracted explicit record whose raw key
collides neither with a detector key nor with an earlier appended
explicit record; every explicit key ends up represented.  Detector
entries, synthesized ones included, therefore win ties against extracted
explicit records. -/
theorem merge_precedence_amended (ma : List Anom) (ex : List Record) :
    ∃ rs : List Record,
      merge_anomalies ma ex = ma.map Merged.m ++ rs.map (fun r => Merged.ex (cleanedOf r))
      ∧ (∀ r ∈ rs, r ∈ ex ∧ keyRecord r ∉ ma.map keyAnom)
      ∧ (rs.map keyRecord).Nodup
      ∧ (∀ r ∈ ex, keyRecord r ∈ ma.map keyAnom ∨ keyRecord r ∈ rs.map keyRecord) := by
  exact mergeGo_spec ex (ma.map Merged.m) (ma.map keyAnom)


/-! ### Witnesses -/

/-- C1 witness: the fully failing environment really yields the mock
path and a non-empty recommendation list. -/
theorem all_providers_fail_mock_witness :
    (analyze wEnv "tenant" [] "show costs" [] [] 30 false).1.engine_used = "mock"
    ∧ (analyze wEnv "tenant" [] "show costs" [] [] 30 false).1.recommendations ≠ [] :=
  all_providers_fail_mock wEnv "tenant" "show costs" [] [] 30 fun _ => rfl

/-- C2 witness: a flagged record is reported, an unflagged record with
score exactly 0.8 is not. -/
theorem explicit_anomaly_membership_witness :
    Anom.record w2rec ∈ (detect_anomalies [w2rec, w2rec2]).1
    ∧ Anom.record w2rec2 ∉ (detect_anomalies [w2rec, w2rec2]).1 :=
  ⟨(explicit_anomaly_membership [w2rec, w2rec2] w2rec).1 (by simp) (Or.inl rfl),
   (explicit_anomaly_membership [w2rec, w2rec2] w2rec2).2 rfl
     (by norm_num [scoreOf, w2rec2])⟩

/-- C4 witness: on the two-date dataset the amended statement
instantiates to the method string of the available capability and the
moving-average output — under a failing fit oracle and, because fewer
than 3 distinct dates exist, equally under a succeeding one. -/
theorem forecast_method_amended_witness :
    (forecast_costs c4fe c4data 5).2 =
      (if c4fe.prophetAvailable then "prophet" else "moving_average")
    ∧ (forecast_costs c4fe c4data 5).1 = movingAvg (sortAsc (byDate c4data)) 5
    ∧ (forecast_costs c4fe2 c4data 5).1 = movingAvg (sortAsc (byDate c4data)) 5 :=
  ⟨(forecast_method_amended c4fe c4data 5).2.1 (by decide),
   (forecast_method_amended c4fe c4data 5).2.2.1 (by decide) rfl,
   (forecast_method_amended c4fe2 c4data 5).2.2.2 (by decide)
     (Or.inr (by
       simp +decide only [sortAsc, byDate, groupSum, groupInto, addTo, dateOf,
         nonEmptyOpt, costOf, c4data, insertAsc, List.foldl, List.filterMap, List.map]
       split <;> norm_num))⟩

/-- C5 witness: one dated record of cost 10, horizon 3: three predictions
and the second equals `round(10 * 1.005, 2) = 10.05`. -/
theorem moving_average_formula_witness :
    ((forecast_costs w5fe w5ds 3).1).length = 3
    ∧ ((forecast_costs w5fe w5ds 3).1)[1]? = some (201 / 20 : ℚ) := by
  have hth := moving_average_formula w5fe w5ds 3 (by decide) (Or.inl rfl)
  refine ⟨hth.1, ?_⟩
  rw [hth.2 1 (by norm_num)]
  norm_num [lastKAvg, sortAsc, byDate, groupSum, groupInto, addTo, dateOf, nonEmptyOpt,
    costOf, w5ds, insertAsc, round2, roundHalfEven]

/-- C8 witness: the amended merge description instantiated on a single
explicit record and no detector output. -/
theorem merge_precedence_amended_witness :
    ∃ rs : List Record,
      merge_anomalies [] [w2rec] =
        ([] : List Anom).map Merged.m ++ rs.map (fun r => Merged.ex (cleanedOf r))
      ∧ (∀ r ∈ rs, r ∈ [w2rec] ∧ keyRecord r ∉ ([] : List Anom).map keyAnom)
      ∧ (rs.map keyRecord).Nodup
      ∧ (∀ r ∈ [w2rec], keyRecord r ∈ ([] : List Anom).map keyAnom ∨
          keyRecord r ∈ rs.map keyRecord) :=
  merge_precedence_amended [] [w2rec]

/-- C9 witness: the dedup example, on the it dashboard, keeps one dynamic
entry, ends with the static guidance, and covers the input keys. -/
theorem recommendations_dedup_witness :
    tune_recommendations c9base Dashboard.it ≠ []
    ∧ (tune_recommendations c9base Dashboard.it).getLast? =
        some (guidance Dashboard.it)
    ∧ keyOfText (recText (RawRec.str "Resize EC2")) ∈
        ((tune_recommendations c9base Dashboard.it).dropLast.map keyOfText) :=
  ⟨(recommendations_dedup.1 c9base Dashboard.it).1,
   (recommendations_dedup.1 c9base Dashboard.it).2.1,
   (recommendations_dedup.1 c9base Dashboard.it).2.2.2.2
     (RawRec.str "Resize EC2") (by simp [c9base])⟩

/-- C10 witness: with three flagged records present, the first three
anomalies handed to the prompt are exactly those records. -/
theorem anomaly_list_order_witness :
    (detect_anomalies w10ds).1.take 3 =
      ((w10ds.filter isExplicitAnom).map Anom.record).take 3 :=
  ((anomaly_list_order w10ds).2.2.2 (by
    simp +decide only [w10ds, isExplicitAnom, scoreOf, List.filter]
    norm_num)).1

end CostGuardian
